import Mathlib

/-!
Verification of the solutions stored under `compiler-service/codes`.

Shallow embedding of the C++ solutions:

* `dailyTemperatures` (monotonic stack, file `608a1a75-...cpp`);
* `isPalindrome` (half reversal of the decimal digits, file `27834dec-...cpp`);
* `digitSum` (sum of the decimal digits, file `1065b326-...cpp`).

Vectors are lists, `std::stack<int>` is a list whose head is the top of the
stack, and every indexed access is bounds checked: a read or a write outside
`[0, n)` makes the embedding return `none`.  Positions are natural numbers
(the loop counter `i` runs over `0 .. n-1`, and `int n = temperatures.size()`
is exact for every vector of fewer than `2^31` readings); the entries of
`answer` are integers computed by the integer subtraction `i - prev_index`.
The arithmetic of `isPalindrome` and `digitSum` is 32-bit: products, sums and
negations are reduced by `wrap32`, division and remainder truncate toward
zero.  `whileLoopLog` and `forLoopLog` are the scan of `dailyTemperatures`
together with a record of every push, pop and write and of the stack after it.
-/

namespace CodeClash

/-! ## `Solution::dailyTemperatures` -/

/-- The inner loop of `dailyTemperatures` at outer position `i`:
`while (!s.empty() && temperatures[i] > temperatures[s.top()])`
pops `prev_index = s.top()` and stores `answer[prev_index] = i - prev_index`.
The stack is a list with its top at the head; the empty stack leaves the loop
without reading anything (short-circuit `&&`).  Reads of `temperatures` and the
write to `answer` are bounds checked. -/
def whileLoop (temperatures : List Int) (i : Nat) :
    List Nat → List Int → Option (List Nat × List Int)
  | [], answer => some ([], answer)
  | prev_index :: s, answer =>
    match temperatures[i]?, temperatures[prev_index]? with
    | some ti, some tp =>
      if ti > tp then
        if prev_index < answer.length then
          whileLoop temperatures i s (answer.set prev_index ((i : Int) - (prev_index : Int)))
        else none
      else some (prev_index :: s, answer)
    | _, _ => none

/-- The state `(s, answer)` reached by `for (int i = 0; i < n; ++i)` after its
first `k` iterations; iteration `i` runs the inner loop and then `s.push(i)`.
Before the first iteration the stack is empty and `answer` is `n` zeros. -/
def forLoop (temperatures : List Int) : Nat → Option (List Nat × List Int)
  | 0 => some ([], List.replicate temperatures.length 0)
  | i + 1 =>
    match forLoop temperatures i with
    | some (s, answer) =>
      match whileLoop temperatures i s answer with
      | some (s', answer') => some (i :: s', answer')
      | none => none
    | none => none

/-- The method `Solution::dailyTemperatures`: run the `for` loop for
`n = temperatures.size()` iterations and return `answer`. -/
def dailyTemperatures (temperatures : List Int) : Option (List Int) :=
  match forLoop temperatures temperatures.length with
  | some (_, answer) => some answer
  | none => none

/-- Position `j` is the first position after `i` whose reading is strictly
greater than the reading at `i`. -/
def FirstWarmer (temps : List Int) (i j : Nat) : Prop :=
  i < j ∧ j < temps.length ∧ temps.getD i 0 < temps.getD j 0 ∧
    ∀ k, i < k → k < j → temps.getD k 0 ≤ temps.getD i 0

/-- Some position after `i` holds a strictly greater reading. -/
def HasWarmer (temps : List Int) (i : Nat) : Prop :=
  ∃ j, i < j ∧ j < temps.length ∧ temps.getD i 0 < temps.getD j 0

/-- The loop invariant of the scan while position `i` is being processed
(positions `< i` have been pushed, some may already have been resolved by `i`):
the stack holds positions in decreasing order from the top, each stacked
position still has answer `0` and has seen no warmer reading before `i`, each
unstacked earlier position holds the distance to its first warmer position,
and positions from `i` on are untouched. -/
structure ScanInv (temps : List Int) (i : Nat) (s : List Nat) (answer : List Int) : Prop where
  len : answer.length = temps.length
  sorted : s.Pairwise (fun p q => q < p)
  lt : ∀ p ∈ s, p < i
  pending : ∀ p ∈ s, answer[p]? = some 0 ∧
    ∀ j, p < j → j < i → temps.getD j 0 ≤ temps.getD p 0
  resolved : ∀ p, p < i → p ∉ s →
    ∃ j, j ≤ i ∧ FirstWarmer temps p j ∧ answer[p]? = some ((j : Int) - (p : Int))
  untouched : ∀ p, i ≤ p → p < temps.length → answer[p]? = some 0

/-! ## `Solution::isPalindrome` -/

/-- The value a signed 32-bit `int` holds after an arithmetic result `z`:
`z` reduced modulo `2^32` into `[-2^31, 2^31)`. -/
def wrap32 (z : Int) : Int :=
  (z + 2147483648) % 4294967296 - 2147483648

/-- The loop `while (x > reversedNumber)` of `isPalindrome`, with
`digit = x % 10`, `reversedNumber = reversedNumber * 10 + digit` and `x /= 10`.
Division and remainder truncate toward zero as in C++; the product and the sum
are 32-bit values.  `fuel` bounds the number of evaluations of the loop
condition; `none` means the fuel ran out.  The result is the final
`(x, reversedNumber)`. -/
def isPalindromeLoop : Nat → Int → Int → Option (Int × Int)
  | 0, _, _ => none
  | fuel + 1, x, reversedNumber =>
    if x > reversedNumber then
      let digit := Int.tmod x 10
      isPalindromeLoop fuel (Int.tdiv x 10) (wrap32 (wrap32 (reversedNumber * 10) + digit))
    else some (x, reversedNumber)

/-- The method `Solution::isPalindrome` on a 32-bit `x`: negative numbers and
non-zero multiples of ten are rejected at once, otherwise the low half of the
digits is reversed and compared with the remaining high half. -/
def isPalindrome (fuel : Nat) (x : Int) : Option Bool :=
  if x < 0 then some false
  else if Int.tmod x 10 == 0 && x != 0 then some false
  else
    match isPalindromeLoop fuel x 0 with
    | some (x', reversedNumber) =>
      some (x' == reversedNumber || x' == Int.tdiv reversedNumber 10)
    | none => none

/-- The decimal digits of `x`, without leading zeros, read the same in both
directions. -/
def DecimalPalindrome (x : Int) : Prop :=
  0 ≤ x ∧ (Nat.digits 10 x.toNat).reverse = Nat.digits 10 x.toNat

instance (x : Int) : Decidable (DecimalPalindrome x) := by
  unfold DecimalPalindrome
  infer_instance

/-- The digit-list view of the loop of `isPalindrome`: the remaining digits
of `x` (least significant first) on the left, the digits moved to
`reversedNumber` on the right; a digit moves while the left value is greater. -/
def moveDigits : List Nat → List Nat → List Nat × List Nat
  | [], rs => ([], rs)
  | a :: xs, rs =>
    if Nat.ofDigits 10 rs < Nat.ofDigits 10 (a :: xs) then moveDigits xs (a :: rs)
    else (a :: xs, rs)

/-- A list of decimal digits, least significant first, with no leading zero
(the most significant digit is the last element). -/
def DigitList (l : List Nat) : Prop :=
  (∀ a ∈ l, a < 10) ∧ l.getLast? ≠ some 0

/-! ## `digitSum` -/

/-- The loop `while (n > 0) { sum += n % 10; n /= 10; }` of `digitSum`; the
sum is a 32-bit value, division and remainder truncate toward zero.  `fuel`
bounds the number of evaluations of the loop condition; `none` means the fuel
ran out.  The result is the final `sum`. -/
def digitSumLoop : Nat → Int → Int → Option Int
  | 0, _, _ => none
  | fuel + 1, n, sum =>
    if n > 0 then digitSumLoop fuel (Int.tdiv n 10) (wrap32 (sum + Int.tmod n 10))
    else some sum

/-- The function `digitSum` on a 32-bit `n`: a negative `n` is replaced by the
32-bit value of `-n`, then the digits are summed. -/
def digitSum (fuel : Nat) (n : Int) : Option Int :=
  digitSumLoop fuel (if n < 0 then wrap32 (-n) else n) 0

/-! ## The scan of `dailyTemperatures` with a record of its actions -/

/-- One action of the scan: `s.push(i)`, `s.pop()` of `prev_index`, or the
write `answer[prev_index] = i - prev_index`. -/
inductive ScanOp where
  | push (i : Nat)
  | pop (prev_index : Nat)
  | write (prev_index : Nat)
  deriving DecidableEq

/-- The inner loop of `dailyTemperatures` as in `whileLoop`, which in addition
appends to `log` every action it performs, each with the stack right after it:
an iteration pops `prev_index` and then writes `answer[prev_index]`. -/
def whileLoopLog (temperatures : List Int) (i : Nat) :
    List Nat → List Int → List (ScanOp × List Nat) →
      Option (List Nat × List Int × List (ScanOp × List Nat))
  | [], answer, log => some ([], answer, log)
  | prev_index :: s, answer, log =>
    match temperatures[i]?, temperatures[prev_index]? with
    | some ti, some tp =>
      if ti > tp then
        if prev_index < answer.length then
          whileLoopLog temperatures i s (answer.set prev_index ((i : Int) - (prev_index : Int)))
            (log ++ [(ScanOp.pop prev_index, s), (ScanOp.write prev_index, s)])
        else none
      else some (prev_index :: s, answer, log)
    | _, _ => none

/-- The `for` loop of `dailyTemperatures` as in `forLoop`, together with the
record of all actions of its first `k` iterations in the order they happen. -/
def forLoopLog (temperatures : List Int) :
    Nat → Option (List Nat × List Int × List (ScanOp × List Nat))
  | 0 => some ([], List.replicate temperatures.length 0, [])
  | i + 1 =>
    match forLoopLog temperatures i with
    | some (s, answer, log) =>
      match whileLoopLog temperatures i s answer log with
      | some (s', answer', log') => some (i :: s', answer', log' ++ [(ScanOp.push i, i :: s')])
      | none => none
    | none => none

/-- How often the action `op` occurs in a record. -/
def opCount (op : ScanOp) (log : List (ScanOp × List Nat)) : Nat :=
  log.countP (fun e => decide (e.1 = op))

/-- The number of pushes in a record. -/
def pushCount (log : List (ScanOp × List Nat)) : Nat :=
  log.countP (fun e => match e.1 with
    | ScanOp.push _ => true
    | _ => false)

/-- The number of pops (iterations of the inner loop) in a record. -/
def popCount (log : List (ScanOp × List Nat)) : Nat :=
  log.countP (fun e => match e.1 with
    | ScanOp.pop _ => true
    | _ => false)

/-- The number of writes to `answer` in a record. -/
def writeCount (log : List (ScanOp × List Nat)) : Nat :=
  log.countP (fun e => match e.1 with
    | ScanOp.write _ => true
    | _ => false)

/-- The readings at the stacked positions never increase from the bottom of the
stack to its top (the head of the list is the top). -/
def StackNonIncreasing (temps : List Int) (s : List Nat) : Prop :=
  s.Pairwise (fun p q => temps.getD p 0 ≤ temps.getD q 0)

/-- The readings at the stacked positions strictly decrease from the bottom of
the stack to its top: no two stacked positions hold equal readings. -/
def StackStrictlyDecreasing (temps : List Int) (s : List Nat) : Prop :=
  s.Pairwise (fun p q => temps.getD p 0 < temps.getD q 0)

instance (temps : List Int) (s : List Nat) : Decidable (StackStrictlyDecreasing temps s) := by
  unfold StackStrictlyDecreasing
  infer_instance

/-- What the record says after the positions `< k` have been pushed and the
stack is `s`: `k` pushes, one for each position `< k`; one pop and one write
for each position `< k` that is no longer stacked, and no other. -/
structure LogInv (k : Nat) (s : List Nat) (log : List (ScanOp × List Nat)) : Prop where
  pushes : pushCount log = k
  pops : popCount log + s.length = k
  writes : writeCount log = popCount log
  pushOnce : ∀ p, opCount (ScanOp.push p) log = if p < k then 1 else 0
  popOnce : ∀ p, opCount (ScanOp.pop p) log = if p < k ∧ p ∉ s then 1 else 0
  writeOnce : ∀ p, opCount (ScanOp.write p) log = if p < k ∧ p ∉ s then 1 else 0

/-! ## `isPalindrome` over unbounded integers -/

/-- The integer `z` is the value of a signed 32-bit `int`. -/
def InRange32 (z : Int) : Prop :=
  -2147483648 ≤ z ∧ z < 2147483648

instance (z : Int) : Decidable (InRange32 z) := by
  unfold InRange32
  infer_instance

/-- The outcome of a run over unbounded integers that watches the 32-bit
range: a result, an arithmetic value outside the range, or no fuel left. -/
inductive Run (α : Type) where
  | done (a : α)
  | overflow
  | outOfFuel
  deriving DecidableEq

/-- The loop of `isPalindrome` computed with unbounded integers.  Every value
an iteration computes (`x % 10`, `reversedNumber * 10`, the sum with `digit`,
`x / 10`) is compared with the 32-bit range and the run stops with `overflow`
when one of them lies outside. -/
def isPalindromeLoopExact : Nat → Int → Int → Run (Int × Int)
  | 0, _, _ => Run.outOfFuel
  | fuel + 1, x, reversedNumber =>
    if x > reversedNumber then
      let digit := Int.tmod x 10
      if InRange32 digit ∧ InRange32 (reversedNumber * 10) ∧
          InRange32 (reversedNumber * 10 + digit) ∧ InRange32 (Int.tdiv x 10) then
        isPalindromeLoopExact fuel (Int.tdiv x 10) (reversedNumber * 10 + digit)
      else Run.overflow
    else Run.done (x, reversedNumber)

/-- The method `isPalindrome` computed with unbounded integers, watching the
32-bit range of `x % 10`, of the values of the loop and of
`reversedNumber / 10`. -/
def isPalindromeExact (fuel : Nat) (x : Int) : Run Bool :=
  if x < 0 then Run.done false
  else if InRange32 (Int.tmod x 10) then
    if Int.tmod x 10 == 0 && x != 0 then Run.done false
    else
      match isPalindromeLoopExact fuel x 0 with
      | Run.done (x', reversedNumber) =>
        if InRange32 (Int.tdiv reversedNumber 10) then
          Run.done (x' == reversedNumber || x' == Int.tdiv reversedNumber 10)
        else Run.overflow
      | Run.overflow => Run.overflow
      | Run.outOfFuel => Run.outOfFuel
  else Run.overflow

/-! ### Proofs about `dailyTemperatures` -/

theorem getElem?_eq_some_getD (temps : List Int) (i : Nat) (h : i < temps.length) :
    temps[i]? = some (temps.getD i 0) := by
  simp [List.getD_eq_getElem?_getD, List.getElem?_eq_getElem h]

theorem scanInv_init (temps : List Int) :
    ScanInv temps 0 [] (List.replicate temps.length 0) where
  len := by simp
  sorted := List.Pairwise.nil
  lt := by simp
  pending := by simp
  resolved := by simp
  untouched := by
    intro p _ hp
    simp [List.getElem?_replicate, hp]

/-- One pop keeps the invariant: the popped position is resolved by `i`. -/
theorem scanInv_pop {temps : List Int} {i p : Nat} {s : List Nat} {answer : List Int}
    (hi : i < temps.length) (h : ScanInv temps i (p :: s) answer)
    (hgt : temps.getD p 0 < temps.getD i 0) :
    ScanInv temps i s (answer.set p ((i : Int) - (p : Int))) := by
  have hpi : p < i := h.lt p (List.mem_cons_self _ _)
  have hps : p ∉ s := fun hm => Nat.lt_irrefl p ((List.pairwise_cons.1 h.sorted).1 p hm)
  refine ⟨by simp [h.len], (List.pairwise_cons.1 h.sorted).2,
    fun q hq => h.lt q (List.mem_cons_of_mem _ hq), ?_, ?_, ?_⟩
  · intro q hq
    have hne : p ≠ q := fun e => hps (e ▸ hq)
    have := h.pending q (List.mem_cons_of_mem _ hq)
    refine ⟨?_, this.2⟩
    rw [List.getElem?_set_ne hne]
    exact this.1
  · intro q hq hqs
    by_cases hqp : q = p
    · subst hqp
      refine ⟨i, le_refl _, ⟨hq, hi, hgt, (h.pending q (List.mem_cons_self _ _)).2⟩, ?_⟩
      have : q < answer.length := by rw [h.len]; omega
      simp [List.getElem?_set_self, this]
    · have hq' : q ∉ p :: s := by
        simp only [List.mem_cons, not_or]
        exact ⟨hqp, hqs⟩
      obtain ⟨j, hj, hfw, ha⟩ := h.resolved q hq hq'
      refine ⟨j, hj, hfw, ?_⟩
      rw [List.getElem?_set_ne (Ne.symm hqp)]
      exact ha
  · intro q hq hqn
    have hne : p ≠ q := by omega
    rw [List.getElem?_set_ne hne]
    exact h.untouched q hq hqn

/-- The inner loop runs to completion, keeps the invariant, and leaves a stack
on which no reading is smaller than the reading at `i`. -/
theorem whileLoop_spec (temps : List Int) (i : Nat) (hi : i < temps.length) :
    ∀ (s : List Nat) (answer : List Int), ScanInv temps i s answer →
      ∃ s' answer', whileLoop temps i s answer = some (s', answer') ∧
        ScanInv temps i s' answer' ∧
        (∀ p ∈ s', temps.getD i 0 ≤ temps.getD p 0) ∧
        (∃ popped, s = popped ++ s') := by
  intro s
  induction s with
  | nil =>
    intro answer h
    exact ⟨[], answer, rfl, h, by simp, [], rfl⟩
  | cons p s ih =>
    intro answer h
    have hpi : p < i := h.lt p (List.mem_cons_self _ _)
    have hp : p < temps.length := by omega
    have hpa : p < answer.length := by rw [h.len]; exact hp
    by_cases hgt : temps.getD p 0 < temps.getD i 0
    · obtain ⟨s', answer', hrun, hinv, htop, popped, hpop⟩ :=
        ih _ (scanInv_pop hi h hgt)
      refine ⟨s', answer', ?_, hinv, htop, p :: popped, by simp [hpop]⟩
      rw [whileLoop, getElem?_eq_some_getD temps i hi, getElem?_eq_some_getD temps p hp]
      show (if _ then _ else _) = _
      rw [if_pos hgt, if_pos hpa, hrun]
    · refine ⟨p :: s, answer, ?_, h, ?_, [], rfl⟩
      · rw [whileLoop, getElem?_eq_some_getD temps i hi, getElem?_eq_some_getD temps p hp]
        show (if _ then _ else _) = _
        rw [if_neg hgt]
      · intro q hq
        rcases List.mem_cons.1 hq with rfl | hqs
        · exact not_lt.1 hgt
        · have hqp : q < p := (List.pairwise_cons.1 h.sorted).1 q hqs
          exact le_trans (not_lt.1 hgt) ((h.pending q hq).2 p hqp hpi)

/-- Pushing `i` after the inner loop gives the invariant for position `i + 1`. -/
theorem scanInv_push {temps : List Int} {i : Nat} {s : List Nat} {answer : List Int}
    (hi : i < temps.length) (h : ScanInv temps i s answer)
    (htop : ∀ p ∈ s, temps.getD i 0 ≤ temps.getD p 0) :
    ScanInv temps (i + 1) (i :: s) answer := by
  refine ⟨h.len, List.pairwise_cons.2 ⟨h.lt, h.sorted⟩, ?_, ?_, ?_, ?_⟩
  · intro p hp
    rcases List.mem_cons.1 hp with rfl | hps
    · omega
    · have := h.lt p hps
      omega
  · intro p hp
    rcases List.mem_cons.1 hp with rfl | hps
    · exact ⟨h.untouched p (le_refl _) hi, fun j h1 h2 => by omega⟩
    · refine ⟨(h.pending p hps).1, fun j h1 h2 => ?_⟩
      by_cases hj : j = i
      · subst hj
        exact htop p hps
      · exact (h.pending p hps).2 j h1 (by omega)
  · intro p hp hps
    simp only [List.mem_cons, not_or] at hps
    obtain ⟨j, hj, hfw, ha⟩ := h.resolved p (by omega) hps.2
    exact ⟨j, by omega, hfw, ha⟩
  · intro p hp hpn
    exact h.untouched p (by omega) hpn

/-- The `for` loop reaches every iteration count `k ≤ n` and the invariant
holds there. -/
theorem forLoop_spec (temps : List Int) :
    ∀ k, k ≤ temps.length →
      ∃ s answer, forLoop temps k = some (s, answer) ∧ ScanInv temps k s answer := by
  intro k
  induction k with
  | zero =>
    intro _
    exact ⟨[], _, rfl, scanInv_init temps⟩
  | succ i ih =>
    intro hk
    obtain ⟨s, answer, hrun, hinv⟩ := ih (by omega)
    obtain ⟨s', answer', hw, hinv', htop, _⟩ := whileLoop_spec temps i (by omega) s answer hinv
    exact ⟨i :: s', answer', by simp [forLoop, hrun, hw], scanInv_push (by omega) hinv' htop⟩

/-- The method returns, and its result is the `answer` of a final state that
satisfies the invariant at `n`. -/
theorem dailyTemperatures_final (temps : List Int) :
    ∃ s answer, dailyTemperatures temps = some answer ∧
      ScanInv temps temps.length s answer := by
  obtain ⟨s, answer, hrun, hinv⟩ := forLoop_spec temps temps.length (le_refl _)
  exact ⟨s, answer, by simp [dailyTemperatures, hrun], hinv⟩

theorem firstWarmer_unique {temps : List Int} {i j j' : Nat}
    (h : FirstWarmer temps i j) (h' : FirstWarmer temps i j') : j = j' := by
  obtain ⟨h1, _, h3, h4⟩ := h
  obtain ⟨h1', _, h3', h4'⟩ := h'
  rcases Nat.lt_trichotomy j j' with hlt | heq | hgt
  · exact absurd (h4' j h1 hlt) (not_le.2 h3)
  · exact heq
  · exact absurd (h4 j' h1' hgt) (not_le.2 h3')

theorem firstWarmer_hasWarmer {temps : List Int} {i j : Nat}
    (h : FirstWarmer temps i j) : HasWarmer temps i :=
  ⟨j, h.1, h.2.1, h.2.2.1⟩

/-- Every entry of the returned sequence is described by the final state:
either the position has no warmer later reading and its entry is `0`, or the
entry is the distance to the first warmer position. -/
theorem dailyTemperatures_entry (temps : List Int) :
    ∃ answer, dailyTemperatures temps = some answer ∧ answer.length = temps.length ∧
      ∀ i, i < temps.length →
        (¬ HasWarmer temps i ∧ answer[i]? = some 0) ∨
        (∃ j, FirstWarmer temps i j ∧ answer[i]? = some ((j : Int) - (i : Int))) := by
  obtain ⟨s, answer, hrun, hinv⟩ := dailyTemperatures_final temps
  refine ⟨answer, hrun, hinv.len, fun i hi => ?_⟩
  by_cases hs : i ∈ s
  · left
    refine ⟨?_, (hinv.pending i hs).1⟩
    rintro ⟨j, h1, h2, h3⟩
    exact absurd ((hinv.pending i hs).2 j h1 h2) (not_le.2 h3)
  · right
    obtain ⟨j, _, hfw, ha⟩ := hinv.resolved i hi hs
    exact ⟨j, hfw, ha⟩

/-- C1: `dailyTemperatures` returns a sequence whose entry at every position
`i < n` is `j - i` for the smallest `j > i` with `temps[j] > temps[i]` when
such a position exists, and `0` otherwise. -/
theorem dailyTemperatures_contract (temps : List Int) :
    ∃ answer, dailyTemperatures temps = some answer ∧
      ∀ i, i < temps.length →
        (HasWarmer temps i →
          ∃ j, FirstWarmer temps i j ∧ answer[i]? = some ((j : Int) - (i : Int))) ∧
        (¬ HasWarmer temps i → answer[i]? = some 0) := by
  obtain ⟨answer, hrun, _, hent⟩ := dailyTemperatures_entry temps
  refine ⟨answer, hrun, fun i hi => ⟨fun hw => ?_, fun hw => ?_⟩⟩
  · rcases hent i hi with ⟨hno, _⟩ | hj
    · exact absurd hw hno
    · exact hj
  · rcases hent i hi with ⟨_, h0⟩ | ⟨j, hfw, _⟩
    · exact h0
    · exact absurd (firstWarmer_hasWarmer hfw) hw

/-- C2: for every input, the empty one included, the returned sequence has
exactly the length of the input. -/
theorem dailyTemperatures_length (temps : List Int) :
    ∃ answer, dailyTemperatures temps = some answer ∧ answer.length = temps.length := by
  obtain ⟨answer, hrun, hlen, _⟩ := dailyTemperatures_entry temps
  exact ⟨answer, hrun, hlen⟩

/-- C3: first-occurrence property.  Whenever the entry `r` at position `i` is
positive, position `i + r` lies inside the sequence, its reading is strictly
greater than the reading at `i`, and every reading strictly between them is at
most the reading at `i`. -/
theorem dailyTemperatures_first_occurrence (temps : List Int) :
    ∃ answer, dailyTemperatures temps = some answer ∧
      ∀ (i : Nat) (r : Int), answer[i]? = some r → 0 < r →
        i + r.toNat < temps.length ∧
        temps.getD i 0 < temps.getD (i + r.toNat) 0 ∧
        ∀ k, 0 < k → k < r.toNat → temps.getD (i + k) 0 ≤ temps.getD i 0 := by
  obtain ⟨answer, hrun, hlen, hent⟩ := dailyTemperatures_entry temps
  refine ⟨answer, hrun, fun i r hr hpos => ?_⟩
  have hi : i < temps.length := by
    rw [← hlen]
    exact (List.getElem?_eq_some_iff.1 hr).1
  rcases hent i hi with ⟨_, h0⟩ | ⟨j, hfw, hj⟩
  · rw [hr] at h0
    have : r = 0 := Option.some.inj h0
    omega
  · rw [hr] at hj
    have hrj : r = (j : Int) - (i : Int) := Option.some.inj hj
    obtain ⟨h1, h2, h3, h4⟩ := hfw
    have hidx : i + r.toNat = j := by omega
    rw [hidx]
    refine ⟨h2, h3, fun k hk1 hk2 => h4 (i + k) (by omega) (by omega)⟩

/-- C4: the entry at position `i < n` is `0` exactly when no later position
holds a strictly greater reading. -/
theorem dailyTemperatures_zero_iff (temps : List Int) :
    ∃ answer, dailyTemperatures temps = some answer ∧
      ∀ i, i < temps.length →
        (answer[i]? = some 0 ↔
          ∀ j, i < j → j < temps.length → temps.getD j 0 ≤ temps.getD i 0) := by
  obtain ⟨answer, hrun, _, hent⟩ := dailyTemperatures_entry temps
  refine ⟨answer, hrun, fun i hi => ?_⟩
  rcases hent i hi with ⟨hno, h0⟩ | ⟨j, hfw, hj⟩
  · refine ⟨fun _ j h1 h2 => ?_, fun _ => h0⟩
    by_contra hlt
    exact hno ⟨j, h1, h2, not_le.1 hlt⟩
  · constructor
    · intro h0
      rw [hj] at h0
      have : (j : Int) - (i : Int) = 0 := Option.some.inj h0
      have := hfw.1
      omega
    · intro hall
      exact absurd (hall j hfw.1 hfw.2.1) (not_le.2 hfw.2.2.1)

/-- C5: the bounds-checked scan never takes its error branch: every prefix of
the `for` loop completes, so every read of `temperatures`, every write to
`answer` and every `top`/`pop` happens inside its bounds, and the method
returns a value. -/
theorem dailyTemperatures_total (temps : List Int) :
    (∀ k, k ≤ temps.length → (forLoop temps k).isSome = true) ∧
      (dailyTemperatures temps).isSome = true := by
  constructor
  · intro k hk
    obtain ⟨s, answer, hrun, _⟩ := forLoop_spec temps k hk
    simp [hrun]
  · obtain ⟨_, answer, hrun, _⟩ := dailyTemperatures_final temps
    simp [hrun]

/-- C6: every entry `r` at a position `i < n` satisfies `0 ≤ r` and
`i + r ≤ n - 1`; in particular `r < n`, so the subtraction `i - prev_index`
that produced it stays within the range of the positions. -/
theorem dailyTemperatures_entry_bounds (temps : List Int) :
    ∃ answer, dailyTemperatures temps = some answer ∧
      ∀ i, i < temps.length →
        ∃ r : Int, answer[i]? = some r ∧ 0 ≤ r ∧
          (i : Int) + r ≤ (temps.length : Int) - 1 ∧ r < (temps.length : Int) := by
  obtain ⟨answer, hrun, _, hent⟩ := dailyTemperatures_entry temps
  refine ⟨answer, hrun, fun i hi => ?_⟩
  rcases hent i hi with ⟨_, h0⟩ | ⟨j, hfw, hj⟩
  · exact ⟨0, h0, le_refl _, by omega, by omega⟩
  · have h1 := hfw.1
    have h2 := hfw.2.1
    exact ⟨(j : Int) - (i : Int), hj, by omega, by omega, by omega⟩

/-- C7: on a strictly increasing input every entry but the last is `1` and
the last entry is `0`. -/
theorem dailyTemperatures_strictly_increasing (temps : List Int)
    (hinc : ∀ i, i + 1 < temps.length → temps.getD i 0 < temps.getD (i + 1) 0) :
    ∃ answer, dailyTemperatures temps = some answer ∧
      (∀ i, i + 1 < temps.length → answer[i]? = some 1) ∧
      (0 < temps.length → answer[temps.length - 1]? = some 0) := by
  obtain ⟨answer, hrun, _, hent⟩ := dailyTemperatures_entry temps
  refine ⟨answer, hrun, fun i hi => ?_, fun hn => ?_⟩
  · have hfw : FirstWarmer temps i (i + 1) :=
      ⟨Nat.lt_succ_self i, hi, hinc i hi, fun k h1 h2 => by omega⟩
    rcases hent i (by omega) with ⟨hno, _⟩ | ⟨j, hfw', hj⟩
    · exact absurd (firstWarmer_hasWarmer hfw) hno
    · have hjeq : j = i + 1 := firstWarmer_unique hfw' hfw
      rw [hj, hjeq]
      congr 1
      push_cast
      omega
  · rcases hent (temps.length - 1) (by omega) with ⟨_, h0⟩ | ⟨j, hfw, _⟩
    · exact h0
    · have h1 := hfw.1
      have h2 := hfw.2.1
      omega

theorem dailyTemperatures_strictly_increasing_witness :
    ∃ answer, dailyTemperatures [30, 40, 50, 60] = some answer ∧
      (∀ i, i + 1 < [30, 40, 50, 60].length → answer[i]? = some 1) ∧
      (0 < [30, 40, 50, 60].length → answer[[30, 40, 50, 60].length - 1]? = some 0) :=
  dailyTemperatures_strictly_increasing [30, 40, 50, 60] (by
    intro i hi
    have hi' : i < 3 := by simp at hi; omega
    interval_cases i <;> decide)

/-- Readings that never rise from one position to the next never rise between
any two positions. -/
theorem le_of_adjacent_le (temps : List Int)
    (hadj : ∀ i, i + 1 < temps.length → temps.getD (i + 1) 0 ≤ temps.getD i 0) :
    ∀ i j, i < j → j < temps.length → temps.getD j 0 ≤ temps.getD i 0 := by
  intro i j
  induction j with
  | zero => intro h; omega
  | succ j ih =>
    intro hij hj
    by_cases h : i = j
    · subst h
      exact hadj i hj
    · exact le_trans (hadj j hj) (ih (by omega) (by omega))

/-- On an input that never rises, every entry of the result is `0`. -/
theorem dailyTemperatures_of_adjacent_le (temps : List Int)
    (hadj : ∀ i, i + 1 < temps.length → temps.getD (i + 1) 0 ≤ temps.getD i 0) :
    ∃ answer, dailyTemperatures temps = some answer ∧ answer.length = temps.length ∧
      ∀ i, i < temps.length → answer[i]? = some 0 := by
  obtain ⟨answer, hrun, hlen, hent⟩ := dailyTemperatures_entry temps
  refine ⟨answer, hrun, hlen, fun i hi => ?_⟩
  rcases hent i hi with ⟨_, h0⟩ | ⟨j, hfw, _⟩
  · exact h0
  · exact absurd (le_of_adjacent_le temps hadj i j hfw.1 hfw.2.1) (not_le.2 hfw.2.2.1)

/-- C8: on a strictly decreasing input every entry of the result is `0`. -/
theorem dailyTemperatures_strictly_decreasing (temps : List Int)
    (hdec : ∀ i, i + 1 < temps.length → temps.getD (i + 1) 0 < temps.getD i 0) :
    ∃ answer, dailyTemperatures temps = some answer ∧
      answer.length = temps.length ∧ ∀ i, i < temps.length → answer[i]? = some 0 :=
  dailyTemperatures_of_adjacent_le temps (fun i hi => le_of_lt (hdec i hi))

theorem dailyTemperatures_strictly_decreasing_witness :
    ∃ answer, dailyTemperatures [90, 60, 30] = some answer ∧
      answer.length = [90, 60, 30].length ∧
      ∀ i, i < [90, 60, 30].length → answer[i]? = some 0 :=
  dailyTemperatures_strictly_decreasing [90, 60, 30] (by
    intro i hi
    have hi' : i < 2 := by simp at hi; omega
    interval_cases i <;> decide)

/-- C9: the documented scenarios.  `dailyTemperatures` maps
`[73,74,75,71,69,72,76,73]` to `[1,1,4,2,1,1,0,0]`, `[30,40,50,60]` to
`[1,1,1,0]`, `[30,60,90]` to `[1,1,0]`, `[]` to `[]`, `[50]` to `[0]` and
`[50,50,50]` to `[0,0,0]`. -/
theorem dailyTemperatures_scenarios :
    dailyTemperatures [73, 74, 75, 71, 69, 72, 76, 73] = some [1, 1, 4, 2, 1, 1, 0, 0] ∧
    dailyTemperatures [30, 40, 50, 60] = some [1, 1, 1, 0] ∧
    dailyTemperatures [30, 60, 90] = some [1, 1, 0] ∧
    dailyTemperatures [] = some [] ∧
    dailyTemperatures [50] = some [0] ∧
    dailyTemperatures [50, 50, 50] = some [0, 0, 0] := by
  refine ⟨?_, ?_, ?_, ?_, ?_, ?_⟩ <;> decide

/-! ### Proofs about `isPalindrome` -/

theorem wrap32_of_range {z : Int} (h1 : -2147483648 ≤ z) (h2 : z < 2147483648) :
    wrap32 z = z := by
  unfold wrap32
  omega

theorem tmod_natCast (m : Nat) : Int.tmod (m : Int) 10 = ((m % 10 : Nat) : Int) := by
  rw [Int.tmod_eq_emod (by omega) (by norm_num)]
  omega

theorem tdiv_natCast (m : Nat) : Int.tdiv (m : Int) 10 = ((m / 10 : Nat) : Int) := by
  rw [Int.tdiv_eq_ediv (by omega) (by norm_num)]
  omega

/-- Moving digits keeps the digits of the input: the moved digits, read back
in their original order, followed by the remaining ones. -/
theorem moveDigits_append : ∀ (xs rs : List Nat),
    (moveDigits xs rs).2.reverse ++ (moveDigits xs rs).1 = rs.reverse ++ xs := by
  intro xs
  induction xs with
  | nil => intro rs; rfl
  | cons a xs ih =>
    intro rs
    by_cases h : Nat.ofDigits 10 rs < Nat.ofDigits 10 (a :: xs)
    · rw [moveDigits, if_pos h, ih (a :: rs)]
      simp
    · rw [moveDigits, if_neg h]

/-- No step of the loop overflows: while `reversedNumber < x`, ten times
`reversedNumber` plus a digit is far below `2^31`. -/
theorem step_bound {r x p x0 a : Nat} (hrx : r < x) (hrp : r < p) (hx0 : p * x ≤ x0)
    (h31 : x0 < 2147483648) (ha : a < 10) : r * 10 + a < 2147483648 := by
  by_contra hcon
  have h1 : 46341 ≤ p := by omega
  have h2 : 46341 ≤ x := by omega
  have := Nat.mul_le_mul h1 h2
  omega

/-- The 32-bit loop follows the digit lists: started on the values of `xs`
and `rs` with enough fuel it returns the values of `moveDigits xs rs`. -/
theorem isPalindromeLoop_eq_moveDigits : ∀ (xs rs : List Nat) (fuel : Nat),
    (∀ a ∈ xs, a < 10) → (∀ a ∈ rs, a < 10) →
    Nat.ofDigits 10 (rs.reverse ++ xs) < 2147483648 → xs.length < fuel →
    isPalindromeLoop fuel (Nat.ofDigits 10 xs : Nat) (Nat.ofDigits 10 rs : Nat) =
      some (((Nat.ofDigits 10 (moveDigits xs rs).1 : Nat) : Int),
        ((Nat.ofDigits 10 (moveDigits xs rs).2 : Nat) : Int)) := by
  intro xs
  induction xs with
  | nil =>
    intro rs fuel _ _ _ hfuel
    obtain ⟨f, rfl⟩ : ∃ f, fuel = f + 1 := ⟨fuel - 1, by simp at hfuel; omega⟩
    have : ¬ ((Nat.ofDigits 10 ([] : List Nat) : Nat) : Int) > ((Nat.ofDigits 10 rs : Nat) : Int) := by
      simp
    rw [isPalindromeLoop, if_neg this]
    rfl
  | cons a xs ih =>
    intro rs fuel hxs hrs h31 hfuel
    obtain ⟨f, rfl⟩ : ∃ f, fuel = f + 1 := ⟨fuel - 1, by simp at hfuel; omega⟩
    have ha : a < 10 := hxs a (List.mem_cons_self _ _)
    by_cases h : Nat.ofDigits 10 rs < Nat.ofDigits 10 (a :: xs)
    · have hcond : ((Nat.ofDigits 10 (a :: xs) : Nat) : Int) > ((Nat.ofDigits 10 rs : Nat) : Int) := by
        exact_mod_cast h
      have hrp : Nat.ofDigits 10 rs < 10 ^ rs.length :=
        Nat.ofDigits_lt_base_pow_length (by norm_num) hrs
      have hx0 : 10 ^ rs.length * Nat.ofDigits 10 (a :: xs) ≤ Nat.ofDigits 10 (rs.reverse ++ a :: xs) := by
        rw [Nat.ofDigits_append, List.length_reverse]
        exact Nat.le_add_left _ _
      have hb := step_bound h hrp hx0 h31 ha
      have hdiv : Int.tdiv ((Nat.ofDigits 10 (a :: xs) : Nat) : Int) 10
          = ((Nat.ofDigits 10 xs : Nat) : Int) := by
        rw [tdiv_natCast, Nat.ofDigits_cons]
        congr 1
        omega
      have hmod : Int.tmod ((Nat.ofDigits 10 (a :: xs) : Nat) : Int) 10 = (a : Int) := by
        rw [tmod_natCast, Nat.ofDigits_cons]
        congr 1
        omega
      have hacc : wrap32 (wrap32 (((Nat.ofDigits 10 rs : Nat) : Int) * 10) + (a : Int))
          = ((Nat.ofDigits 10 (a :: rs) : Nat) : Int) := by
        have hin : wrap32 (((Nat.ofDigits 10 rs : Nat) : Int) * 10)
            = ((Nat.ofDigits 10 rs : Nat) : Int) * 10 :=
          wrap32_of_range (by omega) (by omega)
        rw [hin, wrap32_of_range (by omega) (by omega), Nat.ofDigits_cons]
        push_cast
        ring
      rw [isPalindromeLoop, if_pos hcond]
      simp only [hdiv, hmod, hacc]
      rw [moveDigits, if_pos h]
      apply ih (a :: rs) f
      · exact fun b hb => hxs b (List.mem_cons_of_mem _ hb)
      · intro b hb
        rcases List.mem_cons.1 hb with rfl | hb
        · exact ha
        · exact hrs b hb
      · simpa using h31
      · simp at hfuel
        omega
    · have hcond : ¬ ((Nat.ofDigits 10 (a :: xs) : Nat) : Int) > ((Nat.ofDigits 10 rs : Nat) : Int) := by
        intro hc
        exact h (by exact_mod_cast hc)
      rw [isPalindromeLoop, if_neg hcond, moveDigits, if_neg h]

theorem digitList_digits (n : Nat) : DigitList (Nat.digits 10 n) := by
  refine ⟨fun a ha => Nat.digits_lt_base (by norm_num) ha, ?_⟩
  by_cases hn : n = 0
  · simp [hn]
  · rw [List.getLast?_eq_getLast _ (Nat.digits_ne_nil_iff_ne_zero.mpr hn)]
    intro h
    exact Nat.getLast_digit_ne_zero 10 hn (Option.some.inj h)

theorem digitList_getLast {l : List Nat} (h : DigitList l) (hne : l ≠ []) :
    l.getLast hne ≠ 0 := by
  intro h0
  apply h.2
  rw [List.getLast?_eq_getLast _ hne, h0]

theorem digits_ofDigits_of_digitList {l : List Nat} (h : DigitList l) :
    Nat.digits 10 (Nat.ofDigits 10 l) = l :=
  Nat.digits_ofDigits 10 (by norm_num) l h.1 (fun hne => digitList_getLast h hne)

/-- Two digit lists without leading zeros that have the same value are equal. -/
theorem digitList_ext {l1 l2 : List Nat} (h1 : DigitList l1) (h2 : DigitList l2)
    (hv : Nat.ofDigits 10 l1 = Nat.ofDigits 10 l2) : l1 = l2 := by
  rw [← digits_ofDigits_of_digitList h1, ← digits_ofDigits_of_digitList h2, hv]

/-- A digit list without leading zero is worth more than any shorter list of
digits. -/
theorem ofDigits_lt_of_length_lt {l1 l2 : List Nat} (h1 : ∀ a ∈ l1, a < 10)
    (h2 : DigitList l2) (hlen : l1.length < l2.length) :
    Nat.ofDigits 10 l1 < Nat.ofDigits 10 l2 := by
  have hne : l2 ≠ [] := by
    intro h
    rw [h] at hlen
    simp at hlen
  have hlow : 10 ^ l2.length ≤ 10 * Nat.ofDigits 10 l2 :=
    Nat.pow_length_le_mul_ofDigits hne (digitList_getLast h2 hne)
  have hup : Nat.ofDigits 10 l1 < 10 ^ l1.length :=
    Nat.ofDigits_lt_base_pow_length (by norm_num) h1
  have hpow : 10 ^ (l1.length + 1) ≤ 10 ^ l2.length :=
    Nat.pow_le_pow_right (by norm_num) hlen
  rw [pow_succ] at hpow
  omega

theorem digitList_of_append {l1 l2 : List Nat} (h : DigitList (l1 ++ l2)) : DigitList l2 := by
  refine ⟨fun a ha => h.1 a (List.mem_append_right _ ha), fun h0 => h.2 ?_⟩
  rw [List.getLast?_append, h0]
  rfl

theorem digitList_of_cons {a : Nat} {l : List Nat} (h : DigitList (a :: l)) : DigitList l := by
  refine ⟨fun b hb => h.1 b (List.mem_cons_of_mem _ hb), fun h0 => h.2 ?_⟩
  cases l with
  | nil => simp at h0
  | cons b t => rw [List.getLast?_cons_cons]; exact h0

/-- When the whole number does not start with the digit `0`, the moved digits
form a number without leading zero. -/
theorem digitList_of_reverse_append {rs xs : List Nat} (h : DigitList (rs.reverse ++ xs))
    (hhead : (rs.reverse ++ xs).head? ≠ some 0) : DigitList rs := by
  refine ⟨fun a ha => h.1 a (List.mem_append_left _ (List.mem_reverse.2 ha)), fun h0 => hhead ?_⟩
  rw [List.head?_append, List.head?_reverse, h0]
  rfl

/-- If the final test of `isPalindrome` succeeds on a state of the loop, the
digits of the input form a palindrome. -/
theorem palindrome_of_test {xs rs : List Nat} (h : DigitList (rs.reverse ++ xs))
    (hhead : (rs.reverse ++ xs).head? ≠ some 0)
    (htest : Nat.ofDigits 10 xs = Nat.ofDigits 10 rs ∨
      Nat.ofDigits 10 xs = Nat.ofDigits 10 rs / 10) :
    (rs.reverse ++ xs).reverse = rs.reverse ++ xs := by
  have hx : DigitList xs := digitList_of_append h
  have hr : DigitList rs := digitList_of_reverse_append h hhead
  rcases htest with heq | heq
  · have : xs = rs := digitList_ext hx hr heq
    subst this
    simp
  · cases rs with
    | nil =>
      have : xs = [] := digitList_ext hx hr (by simpa using heq)
      subst this
      rfl
    | cons b t =>
      have hb : b < 10 := hr.1 b (List.mem_cons_self _ _)
      have hv : Nat.ofDigits 10 xs = Nat.ofDigits 10 t := by
        rw [Nat.ofDigits_cons] at heq
        omega
      have : xs = t := digitList_ext hx (digitList_of_cons hr) hv
      subst this
      simp

/-- On a palindrome, once at least half of the digits have been moved (but no
more than one digit beyond the half) the loop condition fails and the final
test succeeds. -/
theorem test_at_middle {xs rs : List Nat} (hd : ∀ a ∈ rs, a < 10)
    (hpal : (rs.reverse ++ xs).reverse = rs.reverse ++ xs)
    (h1 : xs.length ≤ rs.length) (h2 : rs.length ≤ xs.length + 1) :
    (Nat.ofDigits 10 xs = Nat.ofDigits 10 rs ∨
      Nat.ofDigits 10 xs = Nat.ofDigits 10 rs / 10) ∧
    ¬ Nat.ofDigits 10 rs < Nat.ofDigits 10 xs := by
  rw [List.reverse_append, List.reverse_reverse] at hpal
  by_cases hlen : rs.length = xs.length
  · have : rs = xs := (List.append_inj hpal (by simp [hlen])).2
    subst this
    exact ⟨Or.inl rfl, lt_irrefl _⟩
  · cases rs with
    | nil =>
      simp only [List.length_nil] at h1 hlen
      omega
    | cons b t =>
      have hb : b < 10 := hd b (List.mem_cons_self _ _)
      have hlt : t.length = xs.length := by
        simp only [List.length_cons] at h1 h2 hlen
        omega
      rw [List.reverse_cons, List.append_assoc, List.singleton_append] at hpal
      have : b :: t = b :: xs := (List.append_inj hpal (by simp [hlt])).2
      have ht : t = xs := (List.cons.inj this).2
      subst ht
      rw [Nat.ofDigits_cons]
      constructor
      · right; omega
      · omega

theorem moveDigits_of_not_lt {xs rs : List Nat}
    (h : ¬ Nat.ofDigits 10 rs < Nat.ofDigits 10 xs) : moveDigits xs rs = (xs, rs) := by
  cases xs with
  | nil => rfl
  | cons a xs => rw [moveDigits, if_neg h]

/-- On a palindrome the loop stops at the middle and the final test succeeds. -/
theorem test_of_palindrome : ∀ (xs rs : List Nat), DigitList (rs.reverse ++ xs) →
    (rs.reverse ++ xs).reverse = rs.reverse ++ xs → rs.length ≤ xs.length + 1 →
    (Nat.ofDigits 10 (moveDigits xs rs).1 = Nat.ofDigits 10 (moveDigits xs rs).2 ∨
      Nat.ofDigits 10 (moveDigits xs rs).1 = Nat.ofDigits 10 (moveDigits xs rs).2 / 10) := by
  intro xs
  induction xs with
  | nil =>
    intro rs h hpal hlen
    have hd : ∀ a ∈ rs, a < 10 :=
      fun a ha => h.1 a (List.mem_append_left _ (List.mem_reverse.2 ha))
    exact (test_at_middle hd hpal (Nat.zero_le _) hlen).1
  | cons a xs ih =>
    intro rs h hpal hlen
    have hd : ∀ a ∈ rs, a < 10 :=
      fun a ha => h.1 a (List.mem_append_left _ (List.mem_reverse.2 ha))
    by_cases hlt : rs.length < (a :: xs).length
    · have hv : Nat.ofDigits 10 rs < Nat.ofDigits 10 (a :: xs) :=
        ofDigits_lt_of_length_lt hd (digitList_of_append h) hlt
      have hsame : (a :: rs).reverse ++ xs = rs.reverse ++ a :: xs := by simp
      rw [moveDigits, if_pos hv]
      apply ih (a :: rs)
      · rw [hsame]; exact h
      · rw [hsame]; exact hpal
      · simp at hlt ⊢
        omega
    · obtain ⟨ht, hstop⟩ := test_at_middle hd hpal (by omega) hlen
      rw [moveDigits_of_not_lt hstop]
      exact ht

/-- A value below `2^31` has at most ten decimal digits. -/
theorem digits_length_le_ten {n : Nat} (h31 : n < 2147483648) :
    (Nat.digits 10 n).length ≤ 10 := by
  by_cases hn : n = 0
  · simp [hn]
  · have h1 := Nat.base_pow_length_digits_le 10 n (by norm_num) hn
    by_contra hlen
    have h2 : 10 ^ 11 ≤ 10 ^ (Nat.digits 10 n).length :=
      Nat.pow_le_pow_right (by norm_num) (by omega)
    norm_num at h2
    omega

/-- A non-zero multiple of ten is no palindrome: its last digit is `0` and
its first digit is not. -/
theorem not_palindrome_of_mod_ten {n : Nat} (hn : n ≠ 0) (hmod : n % 10 = 0) :
    (Nat.digits 10 n).reverse ≠ Nat.digits 10 n := by
  intro hpal
  have hd := digitList_digits n
  apply hd.2
  rw [← List.head?_reverse, hpal, Nat.digits_def' (by norm_num) (Nat.pos_of_ne_zero hn), hmod]
  rfl

theorem head?_digits_ne_zero {n : Nat} (h : n = 0 ∨ n % 10 ≠ 0) :
    (Nat.digits 10 n).head? ≠ some 0 := by
  by_cases hn : n = 0
  · simp [hn]
  · have hmod : n % 10 ≠ 0 := by
      rcases h with h | h
      · exact absurd h hn
      · exact h
    rw [Nat.digits_def' (by norm_num) (Nat.pos_of_ne_zero hn)]
    intro h0
    exact hmod (Option.some.inj h0)

/-- The method on a non-negative 32-bit value: with fuel for eleven
evaluations of the loop condition it returns whether the decimal digits form a
palindrome. -/
theorem isPalindrome_natCast (n : Nat) (h31 : n < 2147483648) (fuel : Nat)
    (hfuel : 11 ≤ fuel) :
    isPalindrome fuel (n : Int) =
      some (decide ((Nat.digits 10 n).reverse = Nat.digits 10 n)) := by
  have hneg : ¬ ((n : Int) < 0) := by omega
  by_cases hten : n % 10 = 0 ∧ n ≠ 0
  · have hc : (Int.tmod (n : Int) 10 == 0 && (n : Int) != 0) = true := by
      rw [tmod_natCast]
      simp only [Bool.and_eq_true, beq_iff_eq, bne_iff_ne]
      exact ⟨by exact_mod_cast hten.1, by exact_mod_cast hten.2⟩
    rw [isPalindrome, if_neg hneg, if_pos hc, decide_eq_false (not_palindrome_of_mod_ten hten.2 hten.1)]
  · have hc : ¬ ((Int.tmod (n : Int) 10 == 0 && (n : Int) != 0) = true) := by
      rw [tmod_natCast]
      simp only [Bool.and_eq_true, beq_iff_eq, bne_iff_ne]
      rintro ⟨h1, h2⟩
      exact hten ⟨by exact_mod_cast h1, by exact_mod_cast h2⟩
    have hhead : (Nat.digits 10 n).head? ≠ some 0 := head?_digits_ne_zero (by omega)
    have hd := digitList_digits n
    have hlen : (Nat.digits 10 n).length < fuel := by
      have := digits_length_le_ten h31
      omega
    have hloop := isPalindromeLoop_eq_moveDigits (Nat.digits 10 n) [] fuel hd.1 (by simp)
      (by simpa [Nat.ofDigits_digits] using h31) hlen
    rw [Nat.ofDigits_digits] at hloop
    have happ := moveDigits_append (Nat.digits 10 n) []
    simp only [List.reverse_nil, List.nil_append] at happ
    rw [isPalindrome, if_neg hneg, if_neg hc]
    simp only [Nat.ofDigits_nil, Nat.cast_zero] at hloop
    rw [hloop]
    simp only [tdiv_natCast]
    congr 1
    rw [Bool.eq_iff_iff]
    simp only [Bool.or_eq_true, beq_iff_eq, decide_eq_true_eq, Nat.cast_inj]
    constructor
    · intro htest
      have := palindrome_of_test (by rw [happ]; exact hd) (by rw [happ]; exact hhead) htest
      rwa [happ] at this
    · intro hpal
      exact test_of_palindrome (Nat.digits 10 n) [] (by simpa using hd) (by simpa using hpal)
        (by simp)

/-- C10: for every 32-bit signed `x`, `isPalindrome` (given fuel for eleven
evaluations of its loop condition) returns `true` exactly when `x ≥ 0` and the
decimal digits of `x`, written without leading zeros, read the same forwards
and backwards; every negative `x` and every non-zero multiple of ten gives
`false`, and `0` gives `true`. -/
theorem isPalindrome_iff_decimalPalindrome (x : Int) (hlo : -2147483648 ≤ x)
    (hhi : x < 2147483648) (fuel : Nat) (hfuel : 11 ≤ fuel) :
    isPalindrome fuel x = some (decide (DecimalPalindrome x)) ∧
    (x < 0 → isPalindrome fuel x = some false) ∧
    (x ≠ 0 → 10 ∣ x → isPalindrome fuel x = some false) ∧
    isPalindrome fuel 0 = some true := by
  have hmain : isPalindrome fuel x = some (decide (DecimalPalindrome x)) := by
    by_cases hneg : x < 0
    · have hnp : ¬ DecimalPalindrome x := fun h => absurd h.1 (by omega)
      rw [isPalindrome, if_pos hneg, decide_eq_false hnp]
    · obtain ⟨n, rfl⟩ : ∃ n : Nat, x = (n : Int) := ⟨x.toNat, by omega⟩
      rw [isPalindrome_natCast n (by omega) fuel hfuel]
      congr 1
      rw [Bool.eq_iff_iff]
      simp [DecimalPalindrome]
  have hzero : isPalindrome fuel 0 = some true := by
    have := isPalindrome_natCast 0 (by norm_num) fuel hfuel
    simpa using this
  refine ⟨hmain, fun hneg => ?_, fun hne hdvd => ?_, hzero⟩
  · rw [isPalindrome, if_pos hneg]
  · rw [hmain]
    congr 1
    apply decide_eq_false
    rintro ⟨h0, hpal⟩
    have hn : x.toNat ≠ 0 := by omega
    have hmod : x.toNat % 10 = 0 := by omega
    exact not_palindrome_of_mod_ten hn hmod hpal

theorem isPalindrome_iff_decimalPalindrome_witness :
    isPalindrome 11 1221 = some (decide (DecimalPalindrome 1221)) ∧
    ((1221 : Int) < 0 → isPalindrome 11 1221 = some false) ∧
    ((1221 : Int) ≠ 0 → (10 : Int) ∣ 1221 → isPalindrome 11 1221 = some false) ∧
    isPalindrome 11 0 = some true :=
  isPalindrome_iff_decimalPalindrome 1221 (by decide) (by decide) 11 (by decide)

/-! ### Proofs about `digitSum` -/

/-- The loop adds the decimal digits of a natural number to `sum`, as long as
the total stays a 32-bit value and the fuel covers the digits. -/
theorem digitSumLoop_natCast : ∀ (fuel n sum : Nat),
    (Nat.digits 10 n).length < fuel → sum + (Nat.digits 10 n).sum < 2147483648 →
    digitSumLoop fuel (n : Int) (sum : Int) = some ((sum + (Nat.digits 10 n).sum : Nat) : Int) := by
  intro fuel
  induction fuel with
  | zero => intro n sum h; omega
  | succ f ih =>
    intro n sum hlen hsum
    by_cases hn : n = 0
    · subst hn
      simp [digitSumLoop]
    · have hpos : (n : Int) > 0 := by omega
      have hd : Nat.digits 10 n = (n % 10) :: Nat.digits 10 (n / 10) :=
        Nat.digits_def' (by norm_num) (Nat.pos_of_ne_zero hn)
      rw [hd] at hlen hsum
      simp only [List.length_cons, List.sum_cons] at hlen hsum
      have hacc : wrap32 ((sum : Int) + Int.tmod (n : Int) 10) = ((sum + n % 10 : Nat) : Int) := by
        rw [tmod_natCast, wrap32_of_range (by omega) (by omega)]
        push_cast
        rfl
      rw [digitSumLoop, if_pos hpos, hacc, tdiv_natCast, ih (n / 10) (sum + n % 10) (by omega) (by omega),
        hd, List.sum_cons, Nat.add_assoc]

theorem digits_sum_le (n : Nat) : (Nat.digits 10 n).sum ≤ 9 * (Nat.digits 10 n).length := by
  have h : ∀ l : List Nat, (∀ a ∈ l, a < 10) → l.sum ≤ 9 * l.length := by
    intro l
    induction l with
    | nil => intro _; simp
    | cons a l ih =>
      intro hl
      have ha := hl a (List.mem_cons_self _ _)
      have := ih (fun b hb => hl b (List.mem_cons_of_mem _ hb))
      simp only [List.sum_cons, List.length_cons]
      omega
  exact h _ (fun a ha => Nat.digits_lt_base (by norm_num) ha)

/-- Away from the least 32-bit value, `digitSum` returns the sum of the decimal
digits of `|n|`. -/
theorem digitSum_eq_digits_sum (n : Int) (hlo : -2147483648 < n) (hhi : n < 2147483648)
    (fuel : Nat) (hfuel : 11 ≤ fuel) :
    digitSum fuel n = some (((Nat.digits 10 n.natAbs).sum : Nat) : Int) := by
  have habs : (if n < 0 then wrap32 (-n) else n) = (n.natAbs : Int) := by
    split
    · rw [wrap32_of_range (by omega) (by omega)]
      omega
    · omega
  have h31 : n.natAbs < 2147483648 := by omega
  have hlen := digits_length_le_ten h31
  have hsum := digits_sum_le n.natAbs
  have := digitSumLoop_natCast fuel n.natAbs 0 (by omega) (by omega)
  rw [digitSum, habs]
  simpa using this

/-- C11 at the least 32-bit value: `-n` is again `-2^31`, the loop body never
runs and `digitSum` returns `0`, while the decimal digits of `|n| = 2147483648`
add up to `47`. -/
theorem digitSum_int_min :
    (∀ fuel, digitSum (fuel + 1) (-2147483648) = some 0) ∧
    (Nat.digits 10 (Int.natAbs (-2147483648))).sum = 47 := by
  constructor
  · intro fuel
    have hneg : wrap32 (-(-2147483648)) = -2147483648 := by
      unfold wrap32
      norm_num
    have hlt : (-2147483648 : Int) < 0 := by norm_num
    have hpos : ¬ ((-2147483648 : Int) > 0) := by norm_num
    rw [digitSum, if_pos hlt, hneg, digitSumLoop, if_neg hpos]
  · norm_num

/-! ### Proofs about the recorded scan -/

theorem stackNonIncreasing_of_scanInv {temps : List Int} {i : Nat} {s : List Nat}
    {answer : List Int} (h : ScanInv temps i s answer) : StackNonIncreasing temps s := by
  unfold StackNonIncreasing
  refine List.Pairwise.imp_of_mem ?_ h.sorted
  intro p q hp hq hqp
  exact (h.pending q hq).2 p hqp (h.lt p hp)

theorem logInv_init : LogInv 0 [] [] where
  pushes := rfl
  pops := rfl
  writes := rfl
  pushOnce := by intro p; simp [opCount]
  popOnce := by intro p; simp [opCount]
  writeOnce := by intro p; simp [opCount]

theorem opCount_append (op : ScanOp) (l1 l2 : List (ScanOp × List Nat)) :
    opCount op (l1 ++ l2) = opCount op l1 + opCount op l2 := by
  simp [opCount, List.countP_append]

theorem opCount_pop_step (p q : Nat) (s : List Nat) :
    opCount (ScanOp.pop q) [(ScanOp.pop p, s), (ScanOp.write p, s)] = if q = p then 1 else 0 := by
  by_cases h : q = p
  · subst h
    simp [opCount, List.countP_cons]
  · have hne : p ≠ q := fun e => h e.symm
    simp [opCount, List.countP_cons, h, hne]

theorem opCount_write_step (p q : Nat) (s : List Nat) :
    opCount (ScanOp.write q) [(ScanOp.pop p, s), (ScanOp.write p, s)] = if q = p then 1 else 0 := by
  by_cases h : q = p
  · subst h
    simp [opCount, List.countP_cons]
  · have hne : p ≠ q := fun e => h e.symm
    simp [opCount, List.countP_cons, h, hne]

/-- A pop followed by its write keeps the record consistent. -/
theorem logInv_pop {k p : Nat} {s : List Nat} {log : List (ScanOp × List Nat)}
    (h : LogInv k (p :: s) log) (hpk : p < k) (hps : p ∉ s) :
    LogInv k s (log ++ [(ScanOp.pop p, s), (ScanOp.write p, s)]) := by
  have h1 := h.pushes
  have h2 := h.pops
  have h3 := h.writes
  refine ⟨?_, ?_, ?_, ?_, ?_, ?_⟩
  · simp only [pushCount, List.countP_append, List.countP_cons, List.countP_nil] at h1 ⊢
    simpa using h1
  · simp only [popCount, List.countP_append, List.countP_cons, List.countP_nil,
      List.length_cons] at h2 ⊢
    simp only [Bool.false_eq_true, if_false, if_true] at h2 ⊢
    omega
  · simp only [popCount, writeCount, List.countP_append, List.countP_cons,
      List.countP_nil] at h3 ⊢
    simp only [Bool.false_eq_true, if_false, if_true] at h3 ⊢
    omega
  · intro q
    have := h.pushOnce q
    simp only [opCount, List.countP_append, List.countP_cons, List.countP_nil] at this ⊢
    simpa using this
  · intro q
    rw [opCount_append, h.popOnce q, opCount_pop_step]
    by_cases hq : q = p
    · subst hq
      simp [hpk, hps]
    · simp [hq]
  · intro q
    rw [opCount_append, h.writeOnce q, opCount_write_step]
    by_cases hq : q = p
    · subst hq
      simp [hpk, hps]
    · simp [hq]

/-- A push keeps the record consistent. -/
theorem logInv_push {i : Nat} {s : List Nat} {log : List (ScanOp × List Nat)}
    (h : LogInv i s log) (hlt : ∀ q ∈ s, q < i) :
    LogInv (i + 1) (i :: s) (log ++ [(ScanOp.push i, i :: s)]) := by
  have h1 := h.pushes
  have h2 := h.pops
  have h3 := h.writes
  have his : i ∉ s := fun hm => Nat.lt_irrefl i (hlt i hm)
  refine ⟨?_, ?_, ?_, ?_, ?_, ?_⟩
  · simp only [pushCount, List.countP_append, List.countP_cons, List.countP_nil] at h1 ⊢
    simp only [if_true] at h1 ⊢
    omega
  · simp only [popCount, List.countP_append, List.countP_cons, List.countP_nil,
      List.length_cons] at h2 ⊢
    simp only [Bool.false_eq_true, if_false] at h2 ⊢
    omega
  · simp only [popCount, writeCount, List.countP_append, List.countP_cons,
      List.countP_nil] at h3 ⊢
    simp only [Bool.false_eq_true, if_false] at h3 ⊢
    omega
  · intro q
    rw [opCount_append, h.pushOnce q]
    by_cases hq : q = i
    · subst hq
      simp [opCount, List.countP_cons]
    · have hne : i ≠ q := fun e => hq e.symm
      have hiff : q < i + 1 ↔ q < i := by omega
      simp [opCount, List.countP_cons, hne, hiff]
  · intro q
    rw [opCount_append, h.popOnce q]
    by_cases hq : q = i
    · subst hq
      simp [opCount, List.countP_cons]
    · have hiff : q < i + 1 ↔ q < i := by omega
      simp [opCount, List.countP_cons, hq, hiff]
  · intro q
    rw [opCount_append, h.writeOnce q]
    by_cases hq : q = i
    · subst hq
      simp [opCount, List.countP_cons]
    · have hiff : q < i + 1 ↔ q < i := by omega
      simp [opCount, List.countP_cons, hq, hiff]

/-- The recorded inner loop computes what `whileLoop` computes, keeps the
record consistent, and every stack it records is non-increasing. -/
theorem whileLoopLog_spec (temps : List Int) (i : Nat) (hi : i < temps.length) :
    ∀ (s : List Nat) (answer : List Int) (log : List (ScanOp × List Nat)),
      ScanInv temps i s answer → LogInv i s log →
      (∀ e ∈ log, StackNonIncreasing temps e.2) →
      ∃ s' answer' log', whileLoopLog temps i s answer log = some (s', answer', log') ∧
        whileLoop temps i s answer = some (s', answer') ∧ LogInv i s' log' ∧
        (∀ e ∈ log', StackNonIncreasing temps e.2) := by
  intro s
  induction s with
  | nil =>
    intro answer log _ hlog hsnap
    exact ⟨[], answer, log, rfl, rfl, hlog, hsnap⟩
  | cons p s ih =>
    intro answer log h hlog hsnap
    have hpi : p < i := h.lt p (List.mem_cons_self _ _)
    have hp : p < temps.length := by omega
    have hpa : p < answer.length := by rw [h.len]; exact hp
    have hps : p ∉ s := fun hm => Nat.lt_irrefl p ((List.pairwise_cons.1 h.sorted).1 p hm)
    by_cases hgt : temps.getD p 0 < temps.getD i 0
    · have hinv := scanInv_pop hi h hgt
      have hstack := stackNonIncreasing_of_scanInv hinv
      have hsnap' : ∀ e ∈ log ++ [(ScanOp.pop p, s), (ScanOp.write p, s)],
          StackNonIncreasing temps e.2 := by
        intro e he
        rcases List.mem_append.1 he with he | he
        · exact hsnap e he
        · simp only [List.mem_cons, List.mem_singleton, List.not_mem_nil, or_false] at he
          rcases he with rfl | rfl <;> exact hstack
      obtain ⟨s', answer', log', hrun, hrun', hlog', hs'⟩ :=
        ih _ _ hinv (logInv_pop hlog hpi hps) hsnap'
      refine ⟨s', answer', log', ?_, ?_, hlog', hs'⟩
      · rw [whileLoopLog, getElem?_eq_some_getD temps i hi, getElem?_eq_some_getD temps p hp]
        show (if _ then _ else _) = _
        rw [if_pos hgt, if_pos hpa, hrun]
      · rw [whileLoop, getElem?_eq_some_getD temps i hi, getElem?_eq_some_getD temps p hp]
        show (if _ then _ else _) = _
        rw [if_pos hgt, if_pos hpa, hrun']
    · refine ⟨p :: s, answer, log, ?_, ?_, hlog, hsnap⟩
      · rw [whileLoopLog, getElem?_eq_some_getD temps i hi, getElem?_eq_some_getD temps p hp]
        show (if _ then _ else _) = _
        rw [if_neg hgt]
      · rw [whileLoop, getElem?_eq_some_getD temps i hi, getElem?_eq_some_getD temps p hp]
        show (if _ then _ else _) = _
        rw [if_neg hgt]

/-- The recorded `for` loop reaches every iteration count `k ≤ n` in the state
of `forLoop`, with a consistent record of non-increasing stacks. -/
theorem forLoopLog_spec (temps : List Int) :
    ∀ k, k ≤ temps.length →
      ∃ s answer log, forLoopLog temps k = some (s, answer, log) ∧
        forLoop temps k = some (s, answer) ∧ ScanInv temps k s answer ∧ LogInv k s log ∧
        (∀ e ∈ log, StackNonIncreasing temps e.2) := by
  intro k
  induction k with
  | zero =>
    intro _
    exact ⟨[], _, [], rfl, rfl, scanInv_init temps, logInv_init, by simp⟩
  | succ i ih =>
    intro hk
    have hi : i < temps.length := by omega
    obtain ⟨s, answer, log, hrun, hrun', hinv, hlog, hsnap⟩ := ih (by omega)
    obtain ⟨s', answer', log', hw, hw', hlog', hsnap'⟩ :=
      whileLoopLog_spec temps i hi s answer log hinv hlog hsnap
    obtain ⟨s'', answer'', hw'', hinv', htop, _⟩ := whileLoop_spec temps i hi s answer hinv
    rw [hw'] at hw''
    obtain ⟨rfl, rfl⟩ : s' = s'' ∧ answer' = answer'' := by
      have := Option.some.inj hw''
      exact ⟨congrArg Prod.fst this, congrArg Prod.snd this⟩
    have hpush := scanInv_push hi hinv' htop
    refine ⟨i :: s', answer', log' ++ [(ScanOp.push i, i :: s')], ?_, ?_, hpush,
      logInv_push hlog' hinv'.lt, ?_⟩
    · simp [forLoopLog, hrun, hw]
    · simp [forLoop, hrun', hw']
    · intro e he
      rcases List.mem_append.1 he with he | he
      · exact hsnap' e he
      · simp only [List.mem_singleton] at he
        subst he
        exact stackNonIncreasing_of_scanInv hpush

/-- C12 as stated fails on `[50, 50]`: after the second push the stack holds the
positions `1` and `0`, whose readings are equal, so the stacked readings are
not strictly decreasing. -/
theorem stack_strictlyDecreasing_counterexample :
    ∃ s answer log, forLoopLog [50, 50] [50, 50].length = some (s, answer, log) ∧
      ∃ e ∈ log, e = (ScanOp.push 1, [1, 0]) ∧ ¬ StackStrictlyDecreasing [50, 50] e.2 :=
  ⟨[1, 0], [0, 0], [(ScanOp.push 0, [0]), (ScanOp.push 1, [1, 0])], by decide,
    (ScanOp.push 1, [1, 0]), by decide, rfl, by decide⟩

/-- C12, amended: at every point of the scan, that is after each push, each pop
and each write of every input, the readings at the stacked positions read from
the bottom of the stack to its top never increase (equal readings may be
stacked on each other). -/
theorem stack_nonIncreasing (temps : List Int) :
    ∃ s answer log, forLoopLog temps temps.length = some (s, answer, log) ∧
      forLoop temps temps.length = some (s, answer) ∧
      ∀ e ∈ log, StackNonIncreasing temps e.2 := by
  obtain ⟨s, answer, log, hrun, hrun', _, _, hsnap⟩ :=
    forLoopLog_spec temps temps.length (le_refl _)
  exact ⟨s, answer, log, hrun, hrun', hsnap⟩

/-- C13: when the scan has finished, the positions left on the stack are exactly
the positions with no strictly greater later reading, and the result entry of
each of them is still `0`. -/
theorem stack_after_scan (temps : List Int) :
    ∃ s answer, forLoop temps temps.length = some (s, answer) ∧
      dailyTemperatures temps = some answer ∧
      ∀ i, (i ∈ s ↔ i < temps.length ∧
          ∀ j, i < j → j < temps.length → temps.getD j 0 ≤ temps.getD i 0) ∧
        (i ∈ s → answer[i]? = some 0) := by
  obtain ⟨s, answer, hrun, hinv⟩ := forLoop_spec temps temps.length (le_refl _)
  refine ⟨s, answer, hrun, by simp [dailyTemperatures, hrun], fun i => ⟨⟨fun hs => ?_, ?_⟩,
    fun hs => (hinv.pending i hs).1⟩⟩
  · exact ⟨hinv.lt i hs, (hinv.pending i hs).2⟩
  · rintro ⟨hi, hall⟩
    by_contra hs
    obtain ⟨j, _, hfw, _⟩ := hinv.resolved i hi hs
    exact absurd (hall j hfw.1 hfw.2.1) (not_le.2 hfw.2.2.1)

/-- C14: the scan of an input of length `n` runs to its end; its record holds
exactly `n` pushes, one for each position, at most `n` pops, no position is
popped twice, and every entry of `answer` is written at most once (once for
each pop). -/
theorem scan_linear (temps : List Int) :
    ∃ s answer log, forLoopLog temps temps.length = some (s, answer, log) ∧
      forLoop temps temps.length = some (s, answer) ∧
      pushCount log = temps.length ∧
      popCount log ≤ temps.length ∧
      writeCount log = popCount log ∧
      (∀ p, p < temps.length → opCount (ScanOp.push p) log = 1) ∧
      (∀ p, opCount (ScanOp.pop p) log ≤ 1) ∧
      (∀ p, opCount (ScanOp.write p) log ≤ 1) := by
  obtain ⟨s, answer, log, hrun, hrun', _, hlog, _⟩ :=
    forLoopLog_spec temps temps.length (le_refl _)
  refine ⟨s, answer, log, hrun, hrun', hlog.pushes, ?_, hlog.writes, ?_, ?_, ?_⟩
  · have := hlog.pops
    omega
  · intro p hp
    rw [hlog.pushOnce p, if_pos hp]
  · intro p
    rw [hlog.popOnce p]
    split <;> omega
  · intro p
    rw [hlog.writeOnce p]
    split <;> omega

/-! ### `isPalindrome` stays inside the 32-bit range -/

/-- The loop over unbounded integers follows the digit lists without leaving
the 32-bit range. -/
theorem isPalindromeLoopExact_eq_moveDigits : ∀ (xs rs : List Nat) (fuel : Nat),
    (∀ a ∈ xs, a < 10) → (∀ a ∈ rs, a < 10) →
    Nat.ofDigits 10 (rs.reverse ++ xs) < 2147483648 → xs.length < fuel →
    isPalindromeLoopExact fuel (Nat.ofDigits 10 xs : Nat) (Nat.ofDigits 10 rs : Nat) =
      Run.done (((Nat.ofDigits 10 (moveDigits xs rs).1 : Nat) : Int),
        ((Nat.ofDigits 10 (moveDigits xs rs).2 : Nat) : Int)) := by
  intro xs
  induction xs with
  | nil =>
    intro rs fuel _ _ _ hfuel
    obtain ⟨f, rfl⟩ : ∃ f, fuel = f + 1 := ⟨fuel - 1, by simp at hfuel; omega⟩
    have : ¬ ((Nat.ofDigits 10 ([] : List Nat) : Nat) : Int) > ((Nat.ofDigits 10 rs : Nat) : Int) := by
      simp
    rw [isPalindromeLoopExact, if_neg this]
    rfl
  | cons a xs ih =>
    intro rs fuel hxs hrs h31 hfuel
    obtain ⟨f, rfl⟩ : ∃ f, fuel = f + 1 := ⟨fuel - 1, by simp at hfuel; omega⟩
    have ha : a < 10 := hxs a (List.mem_cons_self _ _)
    by_cases h : Nat.ofDigits 10 rs < Nat.ofDigits 10 (a :: xs)
    · have hcond : ((Nat.ofDigits 10 (a :: xs) : Nat) : Int) > ((Nat.ofDigits 10 rs : Nat) : Int) := by
        exact_mod_cast h
      have hrp : Nat.ofDigits 10 rs < 10 ^ rs.length :=
        Nat.ofDigits_lt_base_pow_length (by norm_num) hrs
      have hx0 : 10 ^ rs.length * Nat.ofDigits 10 (a :: xs) ≤ Nat.ofDigits 10 (rs.reverse ++ a :: xs) := by
        rw [Nat.ofDigits_append, List.length_reverse]
        exact Nat.le_add_left _ _
      have hb := step_bound h hrp hx0 h31 ha
      have hxv : Nat.ofDigits 10 (a :: xs) < 2147483648 := by
        have hpos : 0 < 10 ^ rs.length := Nat.pow_pos (by norm_num)
        have := Nat.le_mul_of_pos_left (Nat.ofDigits 10 (a :: xs)) hpos
        omega
      have hdiv : Int.tdiv ((Nat.ofDigits 10 (a :: xs) : Nat) : Int) 10
          = ((Nat.ofDigits 10 xs : Nat) : Int) := by
        rw [tdiv_natCast, Nat.ofDigits_cons]
        congr 1
        omega
      have hmod : Int.tmod ((Nat.ofDigits 10 (a :: xs) : Nat) : Int) 10 = (a : Int) := by
        rw [tmod_natCast, Nat.ofDigits_cons]
        congr 1
        omega
      have hxs' : Nat.ofDigits 10 xs ≤ Nat.ofDigits 10 (a :: xs) := by
        rw [Nat.ofDigits_cons]
        omega
      have hacc : ((Nat.ofDigits 10 rs : Nat) : Int) * 10 + (a : Int)
          = ((Nat.ofDigits 10 (a :: rs) : Nat) : Int) := by
        rw [Nat.ofDigits_cons]
        push_cast
        ring
      have hrange : InRange32 (a : Int) ∧ InRange32 (((Nat.ofDigits 10 rs : Nat) : Int) * 10) ∧
          InRange32 (((Nat.ofDigits 10 rs : Nat) : Int) * 10 + (a : Int)) ∧
          InRange32 ((Nat.ofDigits 10 xs : Nat) : Int) := by
        unfold InRange32
        omega
      rw [isPalindromeLoopExact, if_pos hcond]
      simp only [hdiv, hmod]
      rw [if_pos hrange, hacc, moveDigits, if_pos h]
      apply ih (a :: rs) f
      · exact fun b hb => hxs b (List.mem_cons_of_mem _ hb)
      · intro b hb
        rcases List.mem_cons.1 hb with rfl | hb
        · exact ha
        · exact hrs b hb
      · simpa using h31
      · simp at hfuel
        omega
    · have hcond : ¬ ((Nat.ofDigits 10 (a :: xs) : Nat) : Int) > ((Nat.ofDigits 10 rs : Nat) : Int) := by
        intro hc
        exact h (by exact_mod_cast hc)
      rw [isPalindromeLoopExact, if_neg hcond, moveDigits, if_neg h]

/-- The digits moved by the loop are digits of the input, so the final
`reversedNumber` stays below `10 ^ 10`. -/
theorem moveDigits_snd_lt (d : List Nat) (hd : ∀ a ∈ d, a < 10) (hlen : d.length ≤ 10) :
    Nat.ofDigits 10 (moveDigits d []).2 < 10 ^ 10 := by
  have happ := moveDigits_append d []
  simp only [List.reverse_nil, List.nil_append] at happ
  have hmem : ∀ a ∈ (moveDigits d []).2, a < 10 := by
    intro a ha
    apply hd a
    rw [← happ]
    exact List.mem_append_left _ (List.mem_reverse.2 ha)
  have hl : (moveDigits d []).2.length ≤ 10 := by
    have := congrArg List.length happ
    simp only [List.length_append, List.length_reverse] at this
    omega
  calc Nat.ofDigits 10 (moveDigits d []).2
      < 10 ^ (moveDigits d []).2.length := Nat.ofDigits_lt_base_pow_length (by norm_num) hmem
    _ ≤ 10 ^ 10 := Nat.pow_le_pow_right (by norm_num) hl

/-- C15: for every 32-bit signed `x` and fuel for eleven evaluations of the
loop condition, `isPalindrome` computed over unbounded integers ends with a
result without any computed value leaving the signed 32-bit range, and the
method with wrapping 32-bit arithmetic returns that same result. -/
theorem isPalindrome_no_overflow (x : Int) (hx : InRange32 x) (fuel : Nat)
    (hfuel : 11 ≤ fuel) :
    ∃ b, isPalindromeExact fuel x = Run.done b ∧ isPalindrome fuel x = some b := by
  obtain ⟨hlo, hhi⟩ := hx
  by_cases hneg : x < 0
  · exact ⟨false, by rw [isPalindromeExact, if_pos hneg], by rw [isPalindrome, if_pos hneg]⟩
  · obtain ⟨n, rfl⟩ : ∃ n : Nat, x = (n : Int) := ⟨x.toNat, by omega⟩
    have h31 : n < 2147483648 := by omega
    have hmodr : InRange32 (Int.tmod (n : Int) 10) := by
      rw [tmod_natCast]
      unfold InRange32
      omega
    by_cases hc : (Int.tmod (n : Int) 10 == 0 && (n : Int) != 0) = true
    · exact ⟨false, by rw [isPalindromeExact, if_neg hneg, if_pos hmodr, if_pos hc],
        by rw [isPalindrome, if_neg hneg, if_pos hc]⟩
    · have hd := digitList_digits n
      have hlen10 := digits_length_le_ten h31
      have hlen : (Nat.digits 10 n).length < fuel := by omega
      have hloop := isPalindromeLoop_eq_moveDigits (Nat.digits 10 n) [] fuel hd.1 (by simp)
        (by simpa [Nat.ofDigits_digits] using h31) hlen
      have hloopE := isPalindromeLoopExact_eq_moveDigits (Nat.digits 10 n) [] fuel hd.1 (by simp)
        (by simpa [Nat.ofDigits_digits] using h31) hlen
      rw [Nat.ofDigits_digits] at hloop hloopE
      simp only [Nat.ofDigits_nil, Nat.cast_zero] at hloop hloopE
      have hr := moveDigits_snd_lt (Nat.digits 10 n) hd.1 hlen10
      have hdivr : InRange32
          (Int.tdiv ((Nat.ofDigits 10 (moveDigits (Nat.digits 10 n) []).2 : Nat) : Int) 10) := by
        rw [tdiv_natCast]
        unfold InRange32
        norm_num at hr
        omega
      refine ⟨(((Nat.ofDigits 10 (moveDigits (Nat.digits 10 n) []).1 : Nat) : Int)
          == ((Nat.ofDigits 10 (moveDigits (Nat.digits 10 n) []).2 : Nat) : Int)
        || ((Nat.ofDigits 10 (moveDigits (Nat.digits 10 n) []).1 : Nat) : Int)
          == Int.tdiv ((Nat.ofDigits 10 (moveDigits (Nat.digits 10 n) []).2 : Nat) : Int) 10),
        ?_, ?_⟩
      · rw [isPalindromeExact, if_neg hneg, if_pos hmodr, if_neg hc, hloopE]
        show (if _ then _ else _) = _
        rw [if_pos hdivr]
      · rw [isPalindrome, if_neg hneg, if_neg hc, hloop]

theorem isPalindrome_no_overflow_witness :
    ∃ b, isPalindromeExact 11 2147447412 = Run.done b ∧ isPalindrome 11 2147447412 = some b :=
  isPalindrome_no_overflow 2147447412 (by decide) 11 (by decide)

/-! ### Further properties of `dailyTemperatures` -/

/-- C16: every entry of the result is `0` exactly when the input never rises
from one position to the next (`temps[i+1] ≤ temps[i]` for every adjacent
pair), which covers strictly decreasing inputs and plateaus. -/
theorem dailyTemperatures_all_zero_iff (temps : List Int) :
    ∃ answer, dailyTemperatures temps = some answer ∧ answer.length = temps.length ∧
      ((∀ i, i < temps.length → answer[i]? = some 0) ↔
        ∀ i, i + 1 < temps.length → temps.getD (i + 1) 0 ≤ temps.getD i 0) := by
  obtain ⟨answer, hrun, hlen, hent⟩ := dailyTemperatures_entry temps
  refine ⟨answer, hrun, hlen, ⟨fun hzero i hi => ?_, fun hadj i hi => ?_⟩⟩
  · rcases hent i (by omega) with ⟨hno, _⟩ | ⟨j, hfw, hj⟩
    · by_contra hlt
      exact hno ⟨i + 1, Nat.lt_succ_self i, hi, not_le.1 hlt⟩
    · rw [hzero i (by omega)] at hj
      have : (0 : Int) = (j : Int) - (i : Int) := Option.some.inj hj
      have := hfw.1
      omega
  · rcases hent i hi with ⟨_, h0⟩ | ⟨j, hfw, _⟩
    · exact h0
    · exact absurd (le_of_adjacent_le temps hadj i j hfw.1 hfw.2.1) (not_le.2 hfw.2.2.1)

theorem firstWarmer_append {xs : List Int} {i j : Nat} (ys : List Int)
    (h : FirstWarmer xs i j) : FirstWarmer (xs ++ ys) i j := by
  obtain ⟨h1, h2, h3, h4⟩ := h
  have hget : ∀ k, k < xs.length → (xs ++ ys).getD k 0 = xs.getD k 0 := by
    intro k hk
    simp [List.getD_eq_getElem?_getD, List.getElem?_append_left hk]
  refine ⟨h1, ?_, ?_, ?_⟩
  · rw [List.length_append]
    omega
  · rw [hget i (by omega), hget j h2]
    exact h3
  · intro k hk1 hk2
    rw [hget i (by omega), hget k (by omega)]
    exact h4 k hk1 hk2

/-- C17: prefix stability.  An entry of `dailyTemperatures xs` that is positive
is also the entry of `dailyTemperatures (xs ++ ys)` at the same position. -/
theorem dailyTemperatures_append (xs ys : List Int) :
    ∃ a b, dailyTemperatures xs = some a ∧ dailyTemperatures (xs ++ ys) = some b ∧
      ∀ (i : Nat) (r : Int), i < xs.length → a[i]? = some r → 0 < r → b[i]? = some r := by
  obtain ⟨a, hrun, _, hent⟩ := dailyTemperatures_entry xs
  obtain ⟨b, hrun', _, hent'⟩ := dailyTemperatures_entry (xs ++ ys)
  refine ⟨a, b, hrun, hrun', fun i r hi hr hpos => ?_⟩
  rcases hent i hi with ⟨_, h0⟩ | ⟨j, hfw, hj⟩
  · rw [hr] at h0
    have : r = 0 := Option.some.inj h0
    omega
  · have hfw' := firstWarmer_append ys hfw
    have hi' : i < (xs ++ ys).length := by
      rw [List.length_append]
      omega
    rcases hent' i hi' with ⟨hno, _⟩ | ⟨j', hfw'', hj'⟩
    · exact absurd (firstWarmer_hasWarmer hfw') hno
    · rw [firstWarmer_unique hfw'' hfw'] at hj'
      rw [hj', ← hj, hr]

theorem whileLoop_map (f : Int → Int) (hf : StrictMono f) (temps : List Int) (i : Nat) :
    ∀ (s : List Nat) (answer : List Int),
      whileLoop (temps.map f) i s answer = whileLoop temps i s answer := by
  intro s
  induction s with
  | nil => intro answer; rfl
  | cons p s ih =>
    intro answer
    rw [whileLoop, whileLoop, List.getElem?_map, List.getElem?_map]
    cases hti : temps[i]? with
    | none => rfl
    | some ti =>
      cases htp : temps[p]? with
      | none => rfl
      | some tp =>
        show (if f ti > f tp then _ else _) = (if ti > tp then _ else _)
        by_cases h : ti > tp
        · rw [if_pos h, if_pos (hf h), ih]
        · have h' : ¬ f ti > f tp := fun hc => h (hf.lt_iff_lt.1 hc)
          rw [if_neg h, if_neg h']

theorem forLoop_map (f : Int → Int) (hf : StrictMono f) (temps : List Int) :
    ∀ k, forLoop (temps.map f) k = forLoop temps k := by
  intro k
  induction k with
  | zero => simp [forLoop]
  | succ i ih =>
    rw [forLoop, forLoop, ih]
    cases forLoop temps i with
    | none => rfl
    | some st =>
      obtain ⟨s, answer⟩ := st
      show (match whileLoop (temps.map f) i s answer with
        | some (s', answer') => some (i :: s', answer')
        | none => none) = _
      rw [whileLoop_map f hf]

/-- C18: order invariance.  Applying a strictly increasing function to every
reading does not change the result of `dailyTemperatures`. -/
theorem dailyTemperatures_map (f : Int → Int) (hf : StrictMono f) (temps : List Int) :
    dailyTemperatures (temps.map f) = dailyTemperatures temps := by
  rw [dailyTemperatures, dailyTemperatures, List.length_map, forLoop_map f hf]

theorem dailyTemperatures_map_witness :
    dailyTemperatures ([73, 74, 75, 71, 69, 72, 76, 73].map (fun z => z + 100)) =
      dailyTemperatures [73, 74, 75, 71, 69, 72, 76, 73] :=
  dailyTemperatures_map (fun z => z + 100) (fun a b h => by
    show a + 100 < b + 100
    omega) [73, 74, 75, 71, 69, 72, 76, 73]

end CodeClash
